import Mathlib

/-!
Shallow embedding of the field-array subsystem of `vue-composable-form`
(`src/packages/core/src/composable/useFieldArray.ts`).

The external form store is modelled by the `values` list carried in
`FAState`: every `setFieldArrayValue` commit is assumed to be applied
unchanged by the store (it is also logged in `commits` so that claims
about commit calls and the `shouldRevalidate` flag can be stated), and
`setFieldValue` on a path `"<name>.<i>"` is modelled as a point write at
index `i` of that list.

JavaScript array indices are modelled as `Int` (mutators receive numbers
that may be negative); `Array.prototype.splice` / `slice` index clamping
is embedded in `spliceStart`.
-/

namespace VCForm

open List

/-- One element of a field array.  `key` is the identity issued by the
allocator (`seed++` in `createEntry`); `creationValue` is the raw value
captured by the `createEntry` closure, which the derived `value` getter
falls back to when the entry is no longer in the list (`index == -1`). -/
structure Entry (V : Type) where
  key : Nat
  creationValue : V
deriving DecidableEq

/-- Tag identifying which pure transform function was passed to
`setFieldArrayValue` (the source passes the function itself; the store
only replays it, so the tag is a faithful model). -/
inductive OpTag where
  | appendAt | prependAt | swapAt | removeAt | moveAt | insertAt | updateAt | identity
deriving DecidableEq

/-- One `setFieldArrayValue(name, newSequence, transformFn, transformArgs,
shouldRevalidate)` call issued to the external store.  `argA`/`argB` model
the `{ argA, argB }` positional-argument object (indices or `undefined`). -/
structure Commit (V : Type) where
  newValues : List V
  op : OpTag
  argA : Option Int
  argB : Option Int
  shouldRevalidate : Bool
deriving DecidableEq

/-- State of one `useFieldArray` instance: the external value-sequence at
the array's path, the internal entry-sequence (`fields`), the identity
allocator counter (`seed`), and the log of commits issued to the store. -/
structure FAState (V : Type) where
  values : List V
  fields : List (Entry V)
  seed : Nat
  commits : List (Commit V)
deriving DecidableEq

/-- JavaScript's clamping of a (possibly negative) start index for
`splice(start, …)` and `slice(start)` on an array of length `len`:
negative indices count from the end (clamped below at 0), non-negative
ones are clamped above at `len`. -/
def spliceStart (len : Nat) (i : Int) : Nat :=
  if i < 0 then min ((len : Int) + i).toNat len else min i.toNat len

/-- `const appendAt = (data, value) => [...data, value]`. -/
def appendAt (data : List α) (value : α) : List α :=
  data ++ [value]

/-- `const prependAt = (data, value) => [value, ...data]`. -/
def prependAt (data : List α) (value : α) : List α :=
  value :: data

/-- `swapAt(data, indexA, indexB)` exchanges `data[indexA]` and
`data[indexB]` in place.  The source only calls it after checking
`indexA in data && indexB in data`, i.e. with both indices valid; on any
other input this model leaves the list unchanged. -/
def swapAt (data : List α) (indexA indexB : Nat) : List α :=
  match data[indexA]?, data[indexB]? with
  | some x, some y => (data.set indexA y).set indexB x
  | _, _ => data

/-- `removeAt(data, index?)`: `[]` when the index is `undefined`,
otherwise a clone with `splice(index, 1)` applied (JS clamping; removes
nothing when the clamped start is past the end). -/
def removeAt (data : List α) (index : Option Int) : List α :=
  match index with
  | none => []
  | some i =>
    let s := spliceStart data.length i
    data.take s ++ data.drop (s + 1)

/-- `moveAt(data, from, to)`: `data.splice(to, 0, data.splice(from, 1)[0])`.
The source only calls it after checking `from in data`, so the removed
element exists; on any other input this model leaves the list unchanged. -/
def moveAt (data : List α) (frm tgt : Int) : List α :=
  let sFrom := spliceStart data.length frm
  match data[sFrom]? with
  | some x =>
    let rest := data.take sFrom ++ data.drop (sFrom + 1)
    let sTo := spliceStart rest.length tgt
    rest.take sTo ++ x :: rest.drop sTo
  | none => data

/-- `insertAt(data, index, value) = [...data.slice(0, index), value,
...data.slice(index)]` (JS slice clamping on both halves). -/
def insertAt (data : List α) (index : Int) (value : α) : List α :=
  let s := spliceStart data.length index
  data.take s ++ value :: data.drop s

/-- `updateAt(data, index, value)`: clone with `clone[index] = value`.
The source only calls it after checking `index in data`, i.e. with a
valid index, where the assignment is `List.set`. -/
def updateAt (data : List α) (index : Int) (value : α) : List α :=
  if index < 0 then data else data.set index.toNat value

/-- The JavaScript guard `index in array` for a dense array: true iff
`0 ≤ index < array.length`. -/
def idxIn (i : Int) (len : Nat) : Bool :=
  decide (0 ≤ i) && decide (i < (len : Int))

/-- `createEntry(value)`: allocates the next key (`seed++`) and captures
the raw value in the closure.  The derived fields (`index`, `value`,
`name`, …) are modelled by `derivedIndex`, `entryValueGet`,
`entryValueSet`, `entryName` below. -/
def createEntry (value : V) (seed : Nat) : Entry V :=
  ⟨seed, value⟩

/-- `values.map(createEntry)` with the allocator threading `seed++` left
to right (used by `reset` and `replace`). -/
def createEntries : List V → Nat → List (Entry V)
  | [], _ => []
  | v :: vs, s => createEntry v s :: createEntries vs (s + 1)

/-- The entry's derived `index`: `fields.findIndex(f => f.key === key)`,
`-1` when the key is absent (stale handle). -/
def derivedIndex (fields : List (Entry V)) (key : Nat) : Int :=
  match fields.findIdx? (fun e => e.key == key) with
  | some i => (i : Int)
  | none => -1

/-- The entry's derived `name`: the dotted path `` `${name}.${index.value}` ``. -/
def entryName (arrayName : String) (fields : List (Entry V)) (e : Entry V) : String :=
  arrayName ++ "." ++ toString (derivedIndex fields e.key)

/-- The entry's `value` getter:
`index.value === -1 ? value : values.value[index.value]`
(`none` models JavaScript `undefined` for an out-of-bounds read). -/
def entryValueGet (st : FAState V) (e : Entry V) : Option V :=
  let i := derivedIndex st.fields e.key
  if i = -1 then some e.creationValue else st.values[i.toNat]?

/-- The entry's `value` setter: when `index.value === -1` the write is
dropped (`none`); otherwise it is forwarded to the external store as
`setFieldValue(`` `${name}.${index.value}` ``, value)`, modelled as the
addressed path together with the written value. -/
def entryValueSet (arrayName : String) (fields : List (Entry V)) (e : Entry V) (v : V) :
    Option (String × V) :=
  let i := derivedIndex fields e.key
  if i = -1 then none else some (arrayName ++ "." ++ toString i, v)

/-- `append(value)`: commit `appendAt(values, value)` to the store
(`argA: undefined`), then push a fresh entry. -/
def append (st : FAState V) (value : V) : FAState V :=
  let newValues := appendAt st.values value
  { values := newValues
    fields := st.fields ++ [createEntry value st.seed]
    seed := st.seed + 1
    commits := st.commits ++ [⟨newValues, .appendAt, none, none, true⟩] }

/-- `prepend(value)`: commit `prependAt(values, value)` to the store
(`argA: undefined`), then unshift a fresh entry. -/
def prepend (st : FAState V) (value : V) : FAState V :=
  let newValues := prependAt st.values value
  { values := newValues
    fields := createEntry value st.seed :: st.fields
    seed := st.seed + 1
    commits := st.commits ++ [⟨newValues, .prependAt, none, none, true⟩] }

/-- `remove(index?)`: apply `removeAt` to both sequences, commit the new
value-sequence (`argA: index`), publish the new entry-list. -/
def remove (st : FAState V) (index : Option Int) : FAState V :=
  let cloneValues := removeAt st.values index
  let cloneField := removeAt st.fields index
  { values := cloneValues
    fields := cloneField
    seed := st.seed
    commits := st.commits ++ [⟨cloneValues, .removeAt, index, none, true⟩] }

/-- `swap(indexA, indexB)`: return without any effect unless both indices
satisfy `index in values`; otherwise swap in both clones and commit with
`shouldRevalidate = false`. -/
def swap (st : FAState V) (indexA indexB : Int) : FAState V :=
  if idxIn indexA st.values.length && idxIn indexB st.values.length then
    let cloneValues := swapAt st.values indexA.toNat indexB.toNat
    let cloneField := swapAt st.fields indexA.toNat indexB.toNat
    { values := cloneValues
      fields := cloneField
      seed := st.seed
      commits := st.commits ++ [⟨cloneValues, .swapAt, some indexA, some indexB, false⟩] }
  else st

/-- `move(from, to)`: return without any effect unless `from in values`;
otherwise move in both clones and commit with `shouldRevalidate = false`. -/
def move (st : FAState V) (frm tgt : Int) : FAState V :=
  if idxIn frm st.values.length then
    let cloneValues := moveAt st.values frm tgt
    let cloneField := moveAt st.fields frm tgt
    { values := cloneValues
      fields := cloneField
      seed := st.seed
      commits := st.commits ++ [⟨cloneValues, .moveAt, some frm, some tgt, false⟩] }
  else st

/-- `insert(index, value)`: splice the value into the value-sequence and a
fresh entry into the entry-sequence at the same position, commit. -/
def insert (st : FAState V) (index : Int) (value : V) : FAState V :=
  let cloneValues := insertAt st.values index value
  let cloneField := insertAt st.fields index (createEntry value st.seed)
  { values := cloneValues
    fields := cloneField
    seed := st.seed + 1
    commits := st.commits ++ [⟨cloneValues, .insertAt, some index, none, true⟩] }

/-- `update(index, value)`: return without any effect unless
`index in values`; otherwise commit `updateAt(values, index, value)` and
then run `fields.value[index].value = value`, i.e. the entry's value
setter, which forwards a `setFieldValue` point write at the entry's
current derived index (a write at a `-1` index is dropped).  The
entry-list itself is not modified. -/
def update (st : FAState V) (index : Int) (value : V) : FAState V :=
  if idxIn index st.values.length then
    let cloneValue := updateAt st.values index value
    let st1 : FAState V :=
      { values := cloneValue
        fields := st.fields
        seed := st.seed
        commits := st.commits ++ [⟨cloneValue, .updateAt, some index, none, true⟩] }
    match st1.fields[index.toNat]? with
    | some e =>
      let i := derivedIndex st1.fields e.key
      if i = -1 then st1
      else { st1 with values := st1.values.set i.toNat value }
    | none => st1
  else st

/-- `replace(values)`: commit the clone with the identity transform and
rebuild the whole entry-list with freshly allocated keys (the seed is not
reset, so the new keys continue past every previously issued one). -/
def replace (st : FAState V) (vs : List V) : FAState V :=
  let cloneValues := vs
  { values := cloneValues
    fields := createEntries cloneValues st.seed
    seed := st.seed + cloneValues.length
    commits := st.commits ++ [⟨cloneValues, .identity, none, none, true⟩] }

/-- `reset()`: rebuild the entry-list from the store's current value at
the array's path (`fields.value = values.value.map(createEntry)`). -/
def reset (st : FAState V) : FAState V :=
  { st with
    fields := createEntries st.values st.seed
    seed := st.seed + st.values.length }

/-- A call to one of the eight public mutators, with its arguments. -/
inductive Mutation (V : Type) where
  | appendM (value : V)
  | prependM (value : V)
  | swapM (indexA indexB : Int)
  | removeM (index : Option Int)
  | moveM (frm tgt : Int)
  | insertM (index : Int) (value : V)
  | updateM (index : Int) (value : V)
  | replaceM (vs : List V)

/-- Dispatch a mutator call on a state. -/
def applyMutation (st : FAState V) : Mutation V → FAState V
  | .appendM v => append st v
  | .prependM v => prepend st v
  | .swapM a b => swap st a b
  | .removeM i => remove st i
  | .moveM f t => move st f t
  | .insertM i v => insert st i v
  | .updateM i v => update st i v
  | .replaceM vs => replace st vs

/-- Well-formedness of a field-array state: the two sequences have equal
length, entry keys are pairwise distinct, and every key already issued is
below the allocator counter. -/
def WellFormed (st : FAState V) : Prop :=
  st.values.length = st.fields.length ∧
  (st.fields.map Entry.key).Nodup ∧
  ∀ e ∈ st.fields, e.key < st.seed

/-- A pure-reordering call (`swap` or `move`) with its arguments. -/
inductive Reorder where
  | swapR (indexA indexB : Int)
  | moveR (frm tgt : Int)

/-- Dispatch one reordering call. -/
def applyReorder (st : FAState V) : Reorder → FAState V
  | .swapR a b => swap st a b
  | .moveR f t => move st f t

/-- Apply a finite sequence of swap/move calls left to right. -/
def applyReorders (st : FAState V) : List Reorder → FAState V
  | [] => st
  | r :: rs => applyReorders (applyReorder st r) rs

/-- Whether a mutator is one of the two pure reorderings (`swap`, `move`),
the only ones that pass `shouldRevalidate = false` to the store. -/
def isReorder : Mutation V → Bool
  | .swapM _ _ => true
  | .moveM _ _ => true
  | _ => false

/-! ### Helper lemmas about the pure transforms -/

theorem spliceStart_le (len : Nat) (i : Int) : spliceStart len i ≤ len := by
  unfold spliceStart
  split <;> exact min_le_right _ _

theorem getElem_cons_set_perm :
    ∀ (l : List α) (j : Nat) (h : j < l.length) (v : α),
      l.get ⟨j, h⟩ :: l.set j v ~ v :: l
  | x :: t, 0, _, v => List.Perm.swap v x t
  | x :: t, j + 1, h, v => by
    have h' : j < t.length := by simpa using h
    have ih := getElem_cons_set_perm t j h' v
    calc (x :: t).get ⟨j + 1, h⟩ :: (x :: t).set (j + 1) v
        = t.get ⟨j, h'⟩ :: x :: t.set j v := by simp
      _ ~ x :: t.get ⟨j, h'⟩ :: t.set j v := List.Perm.swap _ _ _
      _ ~ x :: v :: t := ih.cons x
      _ ~ v :: x :: t := List.Perm.swap _ _ _

theorem set_set_perm :
    ∀ (l : List α) (a b : Nat) (x y : α),
      l[a]? = some x → l[b]? = some y → (l.set a y).set b x ~ l
  | [], a, _, _, _, ha, _ => by simp at ha
  | h :: t, 0, 0, x, y, ha, hb => by
    obtain rfl : h = x := by simpa using ha
    simp only [List.set_cons_zero]
    exact List.Perm.refl _
  | h :: t, 0, b + 1, x, y, ha, hb => by
    obtain rfl : h = x := by simpa using ha
    have hb' : t[b]? = some y := by simpa using hb
    obtain ⟨hlt, hy⟩ := List.getElem?_eq_some.mp hb'
    show y :: t.set b h ~ h :: t
    calc y :: t.set b h = t.get ⟨b, hlt⟩ :: t.set b h := by
          rw [show t.get ⟨b, hlt⟩ = t[b] from rfl, hy]
      _ ~ h :: t := getElem_cons_set_perm t b hlt h
  | h :: t, a + 1, 0, x, y, ha, hb => by
    obtain rfl : h = y := by simpa using hb
    have ha' : t[a]? = some x := by simpa using ha
    obtain ⟨hlt, hx⟩ := List.getElem?_eq_some.mp ha'
    show x :: t.set a h ~ h :: t
    calc x :: t.set a h = t.get ⟨a, hlt⟩ :: t.set a h := by
          rw [show t.get ⟨a, hlt⟩ = t[a] from rfl, hx]
      _ ~ h :: t := getElem_cons_set_perm t a hlt h
  | h :: t, a + 1, b + 1, x, y, ha, hb => by
    have ha' : t[a]? = some x := by simpa using ha
    have hb' : t[b]? = some y := by simpa using hb
    exact (set_set_perm t a b x y ha' hb').cons h

theorem swapAt_perm (l : List α) (a b : Nat) : swapAt l a b ~ l := by
  unfold swapAt
  split
  · next x y hx hy => exact set_set_perm l a b x y hx hy
  · exact List.Perm.refl l

theorem take_append_drop_succ_sublist (l : List α) (s : Nat) :
    l.take s ++ l.drop (s + 1) <+ l := by
  have h1 : l.drop (s + 1) <+ l.drop s := by
    have h2 := (l.drop s).drop_sublist 1
    rw [List.drop_drop] at h2
    exact h2
  calc l.take s ++ l.drop (s + 1) <+ l.take s ++ l.drop s := h1.append_left _
    _ = l := List.take_append_drop s l

theorem removeAt_some_sublist (l : List α) (i : Int) : removeAt l (some i) <+ l :=
  take_append_drop_succ_sublist l (spliceStart l.length i)

theorem moveAt_perm (l : List α) (f t : Int) : moveAt l f t ~ l := by
  cases hx : l[spliceStart l.length f]? with
  | none =>
    simp only [moveAt, hx]
    exact List.Perm.refl l
  | some x =>
    simp only [moveAt, hx]
    obtain ⟨hlt, hget⟩ := List.getElem?_eq_some.mp hx
    set s := spliceStart l.length f with hs
    set rest := l.take s ++ l.drop (s + 1) with hrest
    set sTo := spliceStart rest.length t with hsTo
    calc rest.take sTo ++ x :: rest.drop sTo
        ~ x :: (rest.take sTo ++ rest.drop sTo) := List.perm_middle
      _ = x :: rest := by rw [List.take_append_drop]
      _ ~ l.take s ++ x :: l.drop (s + 1) := List.perm_middle.symm
      _ = l.take s ++ l.drop s := by
          rw [List.drop_eq_getElem_cons hlt, hget]
      _ = l := List.take_append_drop s l

theorem insertAt_perm (l : List α) (i : Int) (v : α) : insertAt l i v ~ v :: l := by
  unfold insertAt
  calc l.take (spliceStart l.length i) ++ v :: l.drop (spliceStart l.length i)
      ~ v :: (l.take (spliceStart l.length i) ++ l.drop (spliceStart l.length i)) :=
        List.perm_middle
    _ = v :: l := by rw [List.take_append_drop]

theorem insertAt_length (l : List α) (i : Int) (v : α) :
    (insertAt l i v).length = l.length + 1 := by
  simpa using (insertAt_perm l i v).length_eq

theorem removeAt_length_congr (l : List α) (l' : List β) (i : Option Int)
    (h : l.length = l'.length) : (removeAt l i).length = (removeAt l' i).length := by
  cases i with
  | none => simp [removeAt]
  | some j => simp [removeAt, h]

theorem createEntries_map_key (vs : List V) :
    ∀ s : Nat, (createEntries vs s).map Entry.key = List.range' s vs.length := by
  induction vs with
  | nil => intro s; simp [createEntries]
  | cons v vs ih => intro s; simp [createEntries, createEntry, List.range'_succ, ih]

theorem createEntries_length (vs : List V) :
    ∀ s : Nat, (createEntries vs s).length = vs.length := by
  induction vs with
  | nil => intro s; rfl
  | cons v vs ih => intro s; simp [createEntries, ih]

theorem updateAt_length (l : List α) (i : Int) (v : α) :
    (updateAt l i v).length = l.length := by
  unfold updateAt
  split <;> simp

/-! ### Preservation of well-formedness by every mutator -/

theorem seed_not_mem_keys {fields : List (Entry V)} {seed : Nat}
    (hlt : ∀ e ∈ fields, e.key < seed) : seed ∉ fields.map Entry.key := by
  intro hmem
  obtain ⟨e, he, hk⟩ := List.mem_map.mp hmem
  exact absurd (hk ▸ hlt e he) (lt_irrefl seed)

theorem wf_append {st : FAState V} (h : WellFormed st) (v : V) :
    WellFormed (append st v) := by
  obtain ⟨hlen, hnd, hlt⟩ := h
  refine ⟨by simp [append, appendAt, hlen], ?_, ?_⟩
  · show ((st.fields ++ [createEntry v st.seed]).map Entry.key).Nodup
    have hperm : (st.fields ++ [createEntry v st.seed]).map Entry.key ~
        st.seed :: st.fields.map Entry.key := by
      simpa [createEntry] using
        (List.perm_append_singleton (createEntry v st.seed) st.fields).map Entry.key
    exact hperm.nodup_iff.mpr (List.nodup_cons.mpr ⟨seed_not_mem_keys hlt, hnd⟩)
  · intro e he
    show e.key < st.seed + 1
    rcases List.mem_append.mp he with h1 | h1
    · exact Nat.lt_succ_of_lt (hlt e h1)
    · simp only [List.mem_singleton] at h1
      subst h1
      exact Nat.lt_succ_self _

theorem wf_prepend {st : FAState V} (h : WellFormed st) (v : V) :
    WellFormed (prepend st v) := by
  obtain ⟨hlen, hnd, hlt⟩ := h
  refine ⟨by simp [prepend, prependAt, hlen], ?_, ?_⟩
  · show ((createEntry v st.seed :: st.fields).map Entry.key).Nodup
    simpa [createEntry] using List.nodup_cons.mpr ⟨seed_not_mem_keys hlt, hnd⟩
  · intro e he
    show e.key < st.seed + 1
    rcases List.mem_cons.mp he with h1 | h1
    · subst h1; exact Nat.lt_succ_self _
    · exact Nat.lt_succ_of_lt (hlt e h1)

theorem wf_remove {st : FAState V} (h : WellFormed st) (i : Option Int) :
    WellFormed (remove st i) := by
  obtain ⟨hlen, hnd, hlt⟩ := h
  refine ⟨removeAt_length_congr _ _ i hlen, ?_, ?_⟩
  · show ((removeAt st.fields i).map Entry.key).Nodup
    cases i with
    | none => simp [removeAt]
    | some j => exact ((removeAt_some_sublist st.fields j).map Entry.key).nodup hnd
  · intro e he
    show e.key < st.seed
    cases i with
    | none => exact absurd he (List.not_mem_nil e)
    | some j => exact hlt e ((removeAt_some_sublist st.fields j).mem he)

theorem wf_swap {st : FAState V} (h : WellFormed st) (a b : Int) :
    WellFormed (swap st a b) := by
  obtain ⟨hlen, hnd, hlt⟩ := h
  unfold swap
  split
  · refine ⟨?_, ?_, ?_⟩
    · show (swapAt st.values _ _).length = (swapAt st.fields _ _).length
      rw [(swapAt_perm st.values _ _).length_eq, (swapAt_perm st.fields _ _).length_eq]
      exact hlen
    · exact (((swapAt_perm st.fields _ _).map Entry.key).nodup_iff).mpr hnd
    · intro e he
      exact hlt e ((swapAt_perm st.fields _ _).mem_iff.mp he)
  · exact ⟨hlen, hnd, hlt⟩

theorem wf_move {st : FAState V} (h : WellFormed st) (f t : Int) :
    WellFormed (move st f t) := by
  obtain ⟨hlen, hnd, hlt⟩ := h
  unfold move
  split
  · refine ⟨?_, ?_, ?_⟩
    · show (moveAt st.values f t).length = (moveAt st.fields f t).length
      rw [(moveAt_perm st.values f t).length_eq, (moveAt_perm st.fields f t).length_eq]
      exact hlen
    · exact (((moveAt_perm st.fields f t).map Entry.key).nodup_iff).mpr hnd
    · intro e he
      exact hlt e ((moveAt_perm st.fields f t).mem_iff.mp he)
  · exact ⟨hlen, hnd, hlt⟩

theorem wf_insert {st : FAState V} (h : WellFormed st) (i : Int) (v : V) :
    WellFormed (insert st i v) := by
  obtain ⟨hlen, hnd, hlt⟩ := h
  refine ⟨?_, ?_, ?_⟩
  · show (insertAt st.values i v).length = (insertAt st.fields i (createEntry v st.seed)).length
    rw [insertAt_length, insertAt_length, hlen]
  · show ((insertAt st.fields i (createEntry v st.seed)).map Entry.key).Nodup
    have hperm : (insertAt st.fields i (createEntry v st.seed)).map Entry.key ~
        st.seed :: st.fields.map Entry.key := by
      simpa [createEntry] using (insertAt_perm st.fields i (createEntry v st.seed)).map Entry.key
    exact hperm.nodup_iff.mpr (List.nodup_cons.mpr ⟨seed_not_mem_keys hlt, hnd⟩)
  · intro e he
    show e.key < st.seed + 1
    have hmem := (insertAt_perm st.fields i (createEntry v st.seed)).mem_iff.mp he
    rcases List.mem_cons.mp hmem with h1 | h1
    · subst h1; exact Nat.lt_succ_self _
    · exact Nat.lt_succ_of_lt (hlt e h1)

theorem update_components (st : FAState V) (i : Int) (v : V) :
    (update st i v).fields = st.fields ∧ (update st i v).values.length = st.values.length ∧
    (update st i v).seed = st.seed := by
  simp only [update]
  split
  · split
    · split
      · exact ⟨rfl, by simp [updateAt_length], rfl⟩
      · exact ⟨rfl, by simp [updateAt_length], rfl⟩
    · exact ⟨rfl, by simp [updateAt_length], rfl⟩
  · exact ⟨rfl, rfl, rfl⟩

theorem wf_update {st : FAState V} (h : WellFormed st) (i : Int) (v : V) :
    WellFormed (update st i v) := by
  obtain ⟨hlen, hnd, hlt⟩ := h
  obtain ⟨hf, hv, hs⟩ := update_components st i v
  exact ⟨by rw [hf, hv, hlen], by rw [hf]; exact hnd, by rw [hf, hs]; exact hlt⟩

theorem wf_replace {st : FAState V} (_h : WellFormed st) (vs : List V) :
    WellFormed (replace st vs) := by
  refine ⟨?_, ?_, ?_⟩
  · show vs.length = (createEntries vs st.seed).length
    rw [createEntries_length]
  · show ((createEntries vs st.seed).map Entry.key).Nodup
    rw [createEntries_map_key]
    exact List.nodup_range' st.seed vs.length 1 Nat.one_pos
  · intro e he
    show e.key < st.seed + vs.length
    have : e.key ∈ (createEntries vs st.seed).map Entry.key := List.mem_map_of_mem _ he
    rw [createEntries_map_key] at this
    have := List.mem_range'.mp this
    omega

theorem wf_applyMutation {st : FAState V} (h : WellFormed st) (m : Mutation V) :
    WellFormed (applyMutation st m) := by
  cases m with
  | appendM v => exact wf_append h v
  | prependM v => exact wf_prepend h v
  | swapM a b => exact wf_swap h a b
  | removeM i => exact wf_remove h i
  | moveM f t => exact wf_move h f t
  | insertM i v => exact wf_insert h i v
  | updateM i v => exact wf_update h i v
  | replaceM vs => exact wf_replace h vs

/-! ### The derived index of an entry under distinct keys -/

theorem findIdx_key_nodup :
    ∀ (fields : List (Entry V)), (fields.map Entry.key).Nodup →
      ∀ (i : Nat) (h : i < fields.length),
        fields.findIdx? (fun e => e.key == (fields.get ⟨i, h⟩).key) = some i
  | [], _, i, h => by simp at h
  | e :: rest, _, 0, _ => by simp [List.findIdx?_cons]
  | e :: rest, hnd, i + 1, h => by
    have h' : i < rest.length := by simpa using h
    have hnd2 : (e.key :: rest.map Entry.key).Nodup := by
      simpa only [List.map_cons] using hnd
    obtain ⟨hhead, hnd'⟩ := List.nodup_cons.mp hnd2
    have hget : (e :: rest).get ⟨i + 1, h⟩ = rest.get ⟨i, h'⟩ := by simp
    have hne : (e.key == (rest.get ⟨i, h'⟩).key) = false := by
      rw [beq_eq_false_iff_ne]
      intro heq
      exact hhead (heq ▸ List.mem_map.mpr ⟨rest.get ⟨i, h'⟩, rest.get_mem i h', rfl⟩)
    rw [hget, List.findIdx?_cons, hne]
    simp only [Bool.false_eq_true, if_false]
    rw [List.findIdx?_succ, findIdx_key_nodup rest hnd' i h']
    rfl

theorem derivedIndex_getElem {fields : List (Entry V)}
    (hnd : (fields.map Entry.key).Nodup) (i : Nat) (h : i < fields.length) :
    derivedIndex fields (fields.get ⟨i, h⟩).key = (i : Int) := by
  unfold derivedIndex
  rw [findIdx_key_nodup fields hnd i h]

theorem entryName_getElem {fields : List (Entry V)}
    (hnd : (fields.map Entry.key).Nodup) (arrayName : String)
    (i : Nat) (h : i < fields.length) :
    entryName arrayName fields (fields.get ⟨i, h⟩) = arrayName ++ "." ++ toString i := by
  unfold entryName
  rw [derivedIndex_getElem hnd i h]
  rfl

theorem entryValueGet_getElem {st : FAState V}
    (hnd : (st.fields.map Entry.key).Nodup) (i : Nat) (h : i < st.fields.length) :
    entryValueGet st (st.fields.get ⟨i, h⟩) = st.values[i]? := by
  unfold entryValueGet
  rw [derivedIndex_getElem hnd i h]
  have hne : ((i : Int) = -1) = False := by
    simp only [eq_iff_iff, iff_false]
    omega
  simp [hne]

/-- The entry-list built by `reset` on a fresh instance (seed 0) is
well-formed, so `WellFormed` holds inductively for every reachable state. -/
theorem wf_initial (vs : List V) : WellFormed (reset (⟨vs, [], 0, []⟩ : FAState V)) := by
  refine ⟨?_, ?_, ?_⟩
  · show vs.length = (createEntries vs 0).length
    rw [createEntries_length]
  · show ((createEntries vs 0).map Entry.key).Nodup
    rw [createEntries_map_key]
    exact List.nodup_range' 0 vs.length 1 Nat.one_pos
  · intro e he
    show e.key < 0 + vs.length
    have hmem : e.key ∈ (createEntries vs 0).map Entry.key := List.mem_map_of_mem _ he
    rw [createEntries_map_key] at hmem
    have := List.mem_range'.mp hmem
    omega

theorem applyReorder_perm (st : FAState V) (r : Reorder) :
    (applyReorder st r).fields ~ st.fields ∧ (applyReorder st r).seed = st.seed := by
  cases r with
  | swapR a b =>
    show (swap st a b).fields ~ st.fields ∧ (swap st a b).seed = st.seed
    unfold swap
    split
    · exact ⟨swapAt_perm _ _ _, rfl⟩
    · exact ⟨List.Perm.refl _, rfl⟩
  | moveR f t =>
    show (move st f t).fields ~ st.fields ∧ (move st f t).seed = st.seed
    unfold move
    split
    · exact ⟨moveAt_perm _ _ _, rfl⟩
    · exact ⟨List.Perm.refl _, rfl⟩

/-! ### Claims -/

/-- C1: after every mutator call on a well-formed field-array state the
external value-sequence and the internal entry-sequence have the same
length and the same order, and the entry at every position `i` has name
`"<arrayName>.<i>"` (the external store is assumed to commit the sequence
passed to `setFieldArrayValue` unchanged, as modelled in `FAState`);
moreover well-formedness itself is preserved. -/
theorem claim_C1_length_order_invariant (st : FAState V) (m : Mutation V)
    (arrayName : String) (h : WellFormed st) :
    WellFormed (applyMutation st m) ∧
    (applyMutation st m).values.length = (applyMutation st m).fields.length ∧
    ∀ (i : Nat) (hi : i < (applyMutation st m).fields.length),
      entryName arrayName (applyMutation st m).fields
          ((applyMutation st m).fields.get ⟨i, hi⟩) =
        arrayName ++ "." ++ toString i := by
  have hwf := wf_applyMutation h m
  exact ⟨hwf, hwf.1, fun i hi => entryName_getElem hwf.2.1 arrayName i hi⟩

/-- Witness for C1: a concrete well-formed two-element state, a concrete
`prepend`, and the name of the entry at position 0 afterwards. -/
theorem claim_C1_length_order_invariant_witness :
    WellFormed (⟨[10, 20], [⟨0, 10⟩, ⟨1, 20⟩], 2, []⟩ : FAState Nat) ∧
    (applyMutation (⟨[10, 20], [⟨0, 10⟩, ⟨1, 20⟩], 2, []⟩ : FAState Nat)
        (.prependM 30)).values.length =
      (applyMutation (⟨[10, 20], [⟨0, 10⟩, ⟨1, 20⟩], 2, []⟩ : FAState Nat)
        (.prependM 30)).fields.length ∧
    entryName "arr"
        (applyMutation (⟨[10, 20], [⟨0, 10⟩, ⟨1, 20⟩], 2, []⟩ : FAState Nat)
          (.prependM 30)).fields
        ((applyMutation (⟨[10, 20], [⟨0, 10⟩, ⟨1, 20⟩], 2, []⟩ : FAState Nat)
          (.prependM 30)).fields.get ⟨0, by decide⟩) =
      "arr" ++ "." ++ toString 0 := by
  have h := claim_C1_length_order_invariant
    (⟨[10, 20], [⟨0, 10⟩, ⟨1, 20⟩], 2, []⟩ : FAState Nat) (.prependM 30) "arr"
    ⟨by decide, by decide, by decide⟩
  exact ⟨⟨by decide, by decide, by decide⟩, h.2.1, h.2.2 0 (by decide)⟩

/-- C3: `swap`, `move` and `update` given an index that fails the JS guard
`index in values` return without committing any change: the value-sequence,
the entry-sequence and the commit log are all exactly unchanged. -/
theorem claim_C3_bad_index_noop (st : FAState V) (a b f t i : Int) (v : V)
    (hab : idxIn a st.values.length = false ∨ idxIn b st.values.length = false)
    (hf : idxIn f st.values.length = false)
    (hi : idxIn i st.values.length = false) :
    swap st a b = st ∧ move st f t = st ∧ update st i v = st := by
  refine ⟨?_, ?_, ?_⟩
  · unfold swap
    rcases hab with h1 | h1 <;> simp [h1]
  · unfold move
    simp [hf]
  · unfold update
    simp [hi]

/-- Witness for C3: `swap(0, 5)`, `move(5, 0)` and `update(7, ...)` on a
concrete 3-element state leave it exactly unchanged. -/
theorem claim_C3_bad_index_noop_witness :
    swap (⟨[1, 2, 3], [⟨0, 1⟩, ⟨1, 2⟩, ⟨2, 3⟩], 3, []⟩ : FAState Nat) 0 5 =
      (⟨[1, 2, 3], [⟨0, 1⟩, ⟨1, 2⟩, ⟨2, 3⟩], 3, []⟩ : FAState Nat) ∧
    move (⟨[1, 2, 3], [⟨0, 1⟩, ⟨1, 2⟩, ⟨2, 3⟩], 3, []⟩ : FAState Nat) 5 0 =
      (⟨[1, 2, 3], [⟨0, 1⟩, ⟨1, 2⟩, ⟨2, 3⟩], 3, []⟩ : FAState Nat) ∧
    update (⟨[1, 2, 3], [⟨0, 1⟩, ⟨1, 2⟩, ⟨2, 3⟩], 3, []⟩ : FAState Nat) 7 9 =
      (⟨[1, 2, 3], [⟨0, 1⟩, ⟨1, 2⟩, ⟨2, 3⟩], 3, []⟩ : FAState Nat) :=
  claim_C3_bad_index_noop _ 0 5 5 0 7 9 (Or.inr (by decide)) (by decide) (by decide)

/-- C4: a finite sequence of swap/move calls permutes the entry records in
place — every entry present before is present afterwards with its key (and
captured value) unchanged — and the allocator counter is untouched, so no
new key is allocated and no entry is rekeyed. -/
theorem claim_C4_identity_stability (st : FAState V) (ops : List Reorder) :
    (applyReorders st ops).fields ~ st.fields ∧
    (applyReorders st ops).seed = st.seed := by
  induction ops generalizing st with
  | nil => exact ⟨List.Perm.refl _, rfl⟩
  | cons r rs ih =>
    obtain ⟨hp, hs⟩ := applyReorder_perm st r
    obtain ⟨hp', hs'⟩ := ih (applyReorder st r)
    exact ⟨hp'.trans hp, hs'.trans hs⟩

/-- C7: `remove(1)` on the value-sequence `[a, b, c]` yields `[a, c]` and
removes the entry at position 1, and `remove()` with no index argument on
a non-empty array empties both sequences rather than failing. -/
theorem claim_C7_remove_semantics (st : FAState V) (a b c : V) (e1 e2 e3 : Entry V)
    (hv : st.values = [a, b, c]) (hf : st.fields = [e1, e2, e3]) :
    (remove st (some 1)).values = [a, c] ∧
    (remove st (some 1)).fields = [e1, e3] ∧
    ∀ st' : FAState V, st'.values ≠ [] →
      (remove st' none).values = [] ∧ (remove st' none).fields = [] := by
  obtain ⟨vals, flds, seed, commits⟩ := st
  simp only at hv hf
  subst hv
  subst hf
  exact ⟨rfl, rfl, fun st' _ => ⟨rfl, rfl⟩⟩

/-- Witness for C7 on the concrete state with values `[1, 2, 3]`. -/
theorem claim_C7_remove_semantics_witness :
    (remove (⟨[1, 2, 3], [⟨0, 1⟩, ⟨1, 2⟩, ⟨2, 3⟩], 3, []⟩ : FAState Nat) (some 1)).values
        = [1, 3] ∧
    (remove (⟨[1, 2, 3], [⟨0, 1⟩, ⟨1, 2⟩, ⟨2, 3⟩], 3, []⟩ : FAState Nat) (some 1)).fields
        = [⟨0, 1⟩, ⟨2, 3⟩] ∧
    (remove (⟨[1, 2, 3], [⟨0, 1⟩, ⟨1, 2⟩, ⟨2, 3⟩], 3, []⟩ : FAState Nat) none).values
        = [] ∧
    (remove (⟨[1, 2, 3], [⟨0, 1⟩, ⟨1, 2⟩, ⟨2, 3⟩], 3, []⟩ : FAState Nat) none).fields
        = [] := by
  have h := claim_C7_remove_semantics
    (⟨[1, 2, 3], [⟨0, 1⟩, ⟨1, 2⟩, ⟨2, 3⟩], 3, []⟩ : FAState Nat)
    1 2 3 ⟨0, 1⟩ ⟨1, 2⟩ ⟨2, 3⟩ rfl rfl
  have h3 := h.2.2 (⟨[1, 2, 3], [⟨0, 1⟩, ⟨1, 2⟩, ⟨2, 3⟩], 3, []⟩ : FAState Nat) (by decide)
  exact ⟨h.1, h.2.1, h3.1, h3.2⟩

/-- C9: `move(0, 2)` followed by `move(2, 0)` on any 3-element state
restores both the value-sequence and the entry-sequence exactly, so the
original key-to-value correspondence is unchanged. -/
theorem claim_C9_move_round_trip (st : FAState V) (a b c : V) (e1 e2 e3 : Entry V)
    (hv : st.values = [a, b, c]) (hf : st.fields = [e1, e2, e3]) :
    (move (move st 0 2) 2 0).values = st.values ∧
    (move (move st 0 2) 2 0).fields = st.fields := by
  obtain ⟨vals, flds, seed, commits⟩ := st
  simp only at hv hf
  subst hv
  subst hf
  exact ⟨rfl, rfl⟩

/-- Witness for C9 on the concrete state with values `[1, 2, 3]`. -/
theorem claim_C9_move_round_trip_witness :
    (move (move (⟨[1, 2, 3], [⟨0, 1⟩, ⟨1, 2⟩, ⟨2, 3⟩], 3, []⟩ : FAState Nat) 0 2) 2 0).values
        = (⟨[1, 2, 3], [⟨0, 1⟩, ⟨1, 2⟩, ⟨2, 3⟩], 3, []⟩ : FAState Nat).values ∧
    (move (move (⟨[1, 2, 3], [⟨0, 1⟩, ⟨1, 2⟩, ⟨2, 3⟩], 3, []⟩ : FAState Nat) 0 2) 2 0).fields
        = (⟨[1, 2, 3], [⟨0, 1⟩, ⟨1, 2⟩, ⟨2, 3⟩], 3, []⟩ : FAState Nat).fields :=
  claim_C9_move_round_trip _ 1 2 3 ⟨0, 1⟩ ⟨1, 2⟩ ⟨2, 3⟩ rfl rfl

/-- C2 as stated is false on the code: `remove(5)` on a concrete 3-element
state leaves the value-sequence unchanged (as the claim says) but also
leaves the entry-sequence exactly unchanged — the same splice is applied
to both — so the two sequences do not desynchronize. -/
theorem claim_C2_counterexample :
    (remove (⟨[10, 20, 30], [⟨0, 10⟩, ⟨1, 20⟩, ⟨2, 30⟩], 3, []⟩ : FAState Nat)
        (some 5)).values = [10, 20, 30] ∧
    (remove (⟨[10, 20, 30], [⟨0, 10⟩, ⟨1, 20⟩, ⟨2, 30⟩], 3, []⟩ : FAState Nat)
        (some 5)).fields = [⟨0, 10⟩, ⟨1, 20⟩, ⟨2, 30⟩] ∧
    (remove (⟨[10, 20, 30], [⟨0, 10⟩, ⟨1, 20⟩, ⟨2, 30⟩], 3, []⟩ : FAState Nat)
        (some 5)).values.length =
      (remove (⟨[10, 20, 30], [⟨0, 10⟩, ⟨1, 20⟩, ⟨2, 30⟩], 3, []⟩ : FAState Nat)
        (some 5)).fields.length :=
  ⟨rfl, rfl, rfl⟩

theorem removeAt_of_length_le (l : List α) (i : Int) (h : (l.length : Int) ≤ i) :
    removeAt l (some i) = l := by
  have h0 : ¬ i < 0 := by omega
  have hs : spliceStart l.length i = l.length := by
    unfold spliceStart
    rw [if_neg h0]
    have hle : l.length ≤ i.toNat := by omega
    exact Nat.min_eq_right hle
  simp only [removeAt]
  rw [hs, List.take_length, List.drop_eq_nil_of_le (by omega), List.append_nil]

/-- C2 amended: `remove(i)` with an out-of-range index applies the same
splice to both sequences, so for `i ≥ length` both the value-sequence and
the entry-sequence are left unchanged, and for every index the two
sequences keep equal lengths — they never desynchronize. -/
theorem claim_C2_amended_out_of_range_remove (st : FAState V) (i : Int)
    (hlen : st.values.length = st.fields.length) :
    ((st.values.length : Int) ≤ i →
      (remove st (some i)).values = st.values ∧
      (remove st (some i)).fields = st.fields) ∧
    (remove st (some i)).values.length = (remove st (some i)).fields.length := by
  constructor
  · intro hge
    constructor
    · exact removeAt_of_length_le st.values i hge
    · exact removeAt_of_length_le st.fields i (by rw [← hlen]; exact hge)
  · exact removeAt_length_congr st.values st.fields (some i) hlen

/-- Witness for the amended C2 at the concrete state of the counterexample. -/
theorem claim_C2_amended_out_of_range_remove_witness :
    ((remove (⟨[10, 20, 30], [⟨0, 10⟩, ⟨1, 20⟩, ⟨2, 30⟩], 3, []⟩ : FAState Nat)
        (some 5)).values = [10, 20, 30] ∧
      (remove (⟨[10, 20, 30], [⟨0, 10⟩, ⟨1, 20⟩, ⟨2, 30⟩], 3, []⟩ : FAState Nat)
        (some 5)).fields = [⟨0, 10⟩, ⟨1, 20⟩, ⟨2, 30⟩]) ∧
    (remove (⟨[10, 20, 30], [⟨0, 10⟩, ⟨1, 20⟩, ⟨2, 30⟩], 3, []⟩ : FAState Nat)
        (some 5)).values.length =
      (remove (⟨[10, 20, 30], [⟨0, 10⟩, ⟨1, 20⟩, ⟨2, 30⟩], 3, []⟩ : FAState Nat)
        (some 5)).fields.length := by
  have h := claim_C2_amended_out_of_range_remove
    (⟨[10, 20, 30], [⟨0, 10⟩, ⟨1, 20⟩, ⟨2, 30⟩], 3, []⟩ : FAState Nat) 5 (by decide)
  exact ⟨h.1 (by decide), h.2⟩

/-- C5: the identity allocator issues the strictly increasing keys
`0, 1, 2, …` within one instance (building entries from seed 0 keys them
with exactly `range`), and `replace([x, y])` after any prior mutations
produces exactly 2 entries whose keys `seed` and `seed + 1` are freshly
allocated — distinct from every key issued before, since every previously
issued key lies below the allocator counter. -/
theorem claim_C5_allocator_fresh_keys (st : FAState V) (x y : V) (vs : List V)
    (h : ∀ e ∈ st.fields, e.key < st.seed) :
    (createEntries vs 0).map Entry.key = List.range vs.length ∧
    (replace st [x, y]).fields.length = 2 ∧
    (replace st [x, y]).fields.map Entry.key = [st.seed, st.seed + 1] ∧
    ∀ e ∈ st.fields, ∀ e2 ∈ (replace st [x, y]).fields, e.key ≠ e2.key := by
  refine ⟨?_, ?_, ?_, ?_⟩
  · rw [createEntries_map_key]
    exact (List.range_eq_range' _).symm
  · show (createEntries [x, y] st.seed).length = 2
    rw [createEntries_length]
    rfl
  · show (createEntries [x, y] st.seed).map Entry.key = [st.seed, st.seed + 1]
    simp [createEntries, createEntry]
  · intro e he e2 he2
    have hk := h e he
    have hmem : e2.key ∈ (createEntries [x, y] st.seed).map Entry.key :=
      List.mem_map_of_mem _ he2
    simp only [createEntries, createEntry, List.map_cons, List.map_nil,
      List.mem_cons, List.not_mem_nil, or_false] at hmem
    rcases hmem with h2 | h2 <;> omega

/-- Witness for C5 at a concrete state with three previously issued keys. -/
theorem claim_C5_allocator_fresh_keys_witness :
    (createEntries ([4, 5, 6] : List Nat) 0).map Entry.key = List.range 3 ∧
    (replace (⟨[1, 2, 3], [⟨0, 1⟩, ⟨1, 2⟩, ⟨2, 3⟩], 3, []⟩ : FAState Nat) [7, 8]).fields.length
      = 2 ∧
    (replace (⟨[1, 2, 3], [⟨0, 1⟩, ⟨1, 2⟩, ⟨2, 3⟩], 3, []⟩ : FAState Nat) [7, 8]).fields.map
      Entry.key = [3, 4] ∧
    (⟨0, 1⟩ : Entry Nat).key ≠ (⟨3, 7⟩ : Entry Nat).key := by
  have h := claim_C5_allocator_fresh_keys
    (⟨[1, 2, 3], [⟨0, 1⟩, ⟨1, 2⟩, ⟨2, 3⟩], 3, []⟩ : FAState Nat) 7 8 [4, 5, 6]
    (by decide)
  exact ⟨h.1, h.2.1, h.2.2.1, h.2.2.2 ⟨0, 1⟩ (by decide) ⟨3, 7⟩ (by decide)⟩

/-- C6: reading an entry's value returns the raw value at its current
derived index from the external value tree when that index is not `-1`,
and the value captured at creation time when it is `-1`; writing forwards
a point write to the store at path `"<arrayName>.<index>"` when the index
is not `-1`, and is silently dropped (no store write) when it is `-1`. -/
theorem claim_C6_entry_value_read_write (st : FAState V) (e : Entry V)
    (arrayName : String) (v : V) :
    (derivedIndex st.fields e.key = -1 →
      entryValueGet st e = some e.creationValue ∧
      entryValueSet arrayName st.fields e v = none) ∧
    ∀ i : Nat, derivedIndex st.fields e.key = (i : Int) →
      entryValueGet st e = st.values[i]? ∧
      entryValueSet arrayName st.fields e v =
        some (arrayName ++ "." ++ toString i, v) := by
  constructor
  · intro h
    refine ⟨?_, ?_⟩
    · simp only [entryValueGet]
      rw [if_pos h]
    · simp only [entryValueSet]
      rw [if_pos h]
  · intro i h
    have hne : derivedIndex st.fields e.key ≠ -1 := by
      rw [h]
      omega
    refine ⟨?_, ?_⟩
    · simp only [entryValueGet]
      rw [if_neg hne, h]
      simp
    · simp only [entryValueSet]
      rw [if_neg hne, h]
      rfl

/-- Witness for C6: a stale entry (key 9, absent from the list) and a live
entry (key 1, at derived index 1) on a concrete two-element state. -/
theorem claim_C6_entry_value_read_write_witness :
    entryValueGet (⟨[10, 20], [⟨0, 10⟩, ⟨1, 20⟩], 2, []⟩ : FAState Nat) ⟨9, 99⟩
        = some 99 ∧
    entryValueSet "arr" ([⟨0, 10⟩, ⟨1, 20⟩] : List (Entry Nat)) ⟨9, 99⟩ 5 = none ∧
    entryValueGet (⟨[10, 20], [⟨0, 10⟩, ⟨1, 20⟩], 2, []⟩ : FAState Nat) ⟨1, 20⟩
        = ([10, 20] : List Nat)[1]? ∧
    entryValueSet "arr" ([⟨0, 10⟩, ⟨1, 20⟩] : List (Entry Nat)) ⟨1, 20⟩ 5
        = some ("arr" ++ "." ++ toString 1, 5) := by
  have h1 := claim_C6_entry_value_read_write
    (⟨[10, 20], [⟨0, 10⟩, ⟨1, 20⟩], 2, []⟩ : FAState Nat) ⟨9, 99⟩ "arr" 5
  have h2 := claim_C6_entry_value_read_write
    (⟨[10, 20], [⟨0, 10⟩, ⟨1, 20⟩], 2, []⟩ : FAState Nat) ⟨1, 20⟩ "arr" 5
  exact ⟨(h1.1 (by decide)).1, (h1.1 (by decide)).2,
    (h2.2 1 (by decide)).1, (h2.2 1 (by decide)).2⟩

theorem swap_commits (st : FAState V) (a b : Int) :
    (swap st a b).commits = st.commits ∨
    (swap st a b).commits = st.commits ++
      [⟨swapAt st.values a.toNat b.toNat, .swapAt, some a, some b, false⟩] := by
  unfold swap
  split
  · right; rfl
  · left; rfl

theorem move_commits (st : FAState V) (f t : Int) :
    (move st f t).commits = st.commits ∨
    (move st f t).commits = st.commits ++
      [⟨moveAt st.values f t, .moveAt, some f, some t, false⟩] := by
  unfold move
  split
  · right; rfl
  · left; rfl

theorem update_commits (st : FAState V) (i : Int) (v : V) :
    (update st i v).commits = st.commits ∨
    (update st i v).commits = st.commits ++
      [⟨updateAt st.values i v, .updateAt, some i, none, true⟩] := by
  simp only [update]
  split
  · split
    · split
      · right; rfl
      · right; rfl
    · right; rfl
  · left; rfl

/-- C8: every commit issued by `swap` and `move` passes
`shouldRevalidate = false` to `setFieldArrayValue`, and every commit
issued by `append`, `prepend`, `remove`, `insert`, `update` and `replace`
leaves it at the default `true`: the flag is suppressed exactly for the
pure reorderings. -/
theorem claim_C8_revalidate_flag (st : FAState V) (m : Mutation V) :
    ∀ c ∈ (applyMutation st m).commits.drop st.commits.length,
      c.shouldRevalidate = !(isReorder m) := by
  cases m with
  | appendM v =>
    intro c hc
    rw [show (applyMutation st (.appendM v)).commits =
        st.commits ++ [⟨appendAt st.values v, .appendAt, none, none, true⟩] from rfl,
      List.drop_left] at hc
    rw [List.mem_singleton] at hc
    subst hc
    rfl
  | prependM v =>
    intro c hc
    rw [show (applyMutation st (.prependM v)).commits =
        st.commits ++ [⟨prependAt st.values v, .prependAt, none, none, true⟩] from rfl,
      List.drop_left] at hc
    rw [List.mem_singleton] at hc
    subst hc
    rfl
  | removeM i =>
    intro c hc
    rw [show (applyMutation st (.removeM i)).commits =
        st.commits ++ [⟨removeAt st.values i, .removeAt, i, none, true⟩] from rfl,
      List.drop_left] at hc
    rw [List.mem_singleton] at hc
    subst hc
    rfl
  | insertM i v =>
    intro c hc
    rw [show (applyMutation st (.insertM i v)).commits =
        st.commits ++ [⟨insertAt st.values i v, .insertAt, some i, none, true⟩] from rfl,
      List.drop_left] at hc
    rw [List.mem_singleton] at hc
    subst hc
    rfl
  | replaceM vs =>
    intro c hc
    rw [show (applyMutation st (.replaceM vs)).commits =
        st.commits ++ [⟨vs, .identity, none, none, true⟩] from rfl,
      List.drop_left] at hc
    rw [List.mem_singleton] at hc
    subst hc
    rfl
  | swapM a b =>
    intro c hc
    rcases swap_commits st a b with h | h
    · rw [show (applyMutation st (.swapM a b)).commits = (swap st a b).commits from rfl,
        h, List.drop_length] at hc
      exact absurd hc (List.not_mem_nil c)
    · rw [show (applyMutation st (.swapM a b)).commits = (swap st a b).commits from rfl,
        h, List.drop_left] at hc
      rw [List.mem_singleton] at hc
      subst hc
      rfl
  | moveM f t =>
    intro c hc
    rcases move_commits st f t with h | h
    · rw [show (applyMutation st (.moveM f t)).commits = (move st f t).commits from rfl,
        h, List.drop_length] at hc
      exact absurd hc (List.not_mem_nil c)
    · rw [show (applyMutation st (.moveM f t)).commits = (move st f t).commits from rfl,
        h, List.drop_left] at hc
      rw [List.mem_singleton] at hc
      subst hc
      rfl
  | updateM i v =>
    intro c hc
    rcases update_commits st i v with h | h
    · rw [show (applyMutation st (.updateM i v)).commits = (update st i v).commits from rfl,
        h, List.drop_length] at hc
      exact absurd hc (List.not_mem_nil c)
    · rw [show (applyMutation st (.updateM i v)).commits = (update st i v).commits from rfl,
        h, List.drop_left] at hc
      rw [List.mem_singleton] at hc
      subst hc
      rfl

/-- Witness for C8: the single commit issued by `swap(0, 1)` on a concrete
two-element state carries `shouldRevalidate = false`. -/
theorem claim_C8_revalidate_flag_witness :
    (⟨[20, 10], .swapAt, some 0, some 1, false⟩ : Commit Nat).shouldRevalidate =
      !(isReorder (Mutation.swapM 0 1 : Mutation Nat)) :=
  claim_C8_revalidate_flag (⟨[10, 20], [⟨0, 10⟩, ⟨1, 20⟩], 2, []⟩ : FAState Nat)
    (.swapM 0 1) _ (by decide)

theorem removeAt_neg_in_range (l : List α) (i : Int)
    (hlo : -(l.length : Int) ≤ i) (hhi : i ≤ -1) :
    removeAt l (some i) = l.eraseIdx ((l.length : Int) + i).toNat := by
  have h0 : i < 0 := by omega
  have hs : spliceStart l.length i = ((l.length : Int) + i).toNat := by
    unfold spliceStart
    rw [if_pos h0]
    have hle : ((l.length : Int) + i).toNat ≤ l.length := by omega
    exact Nat.min_eq_left hle
  simp only [removeAt]
  rw [hs, List.eraseIdx_eq_take_drop_succ]

/-- C10: for every state of length `n` and every negative index
`-n ≤ i ≤ -1`, `remove(i)` is not a no-op: per JavaScript splice
semantics it removes the element at position `n + i` from both the
value-sequence and the entry-sequence identically, and both end with the
equal length `n - 1`. -/
theorem claim_C10_negative_index_remove (st : FAState V) (i : Int)
    (hlen : st.values.length = st.fields.length)
    (hlo : -(st.values.length : Int) ≤ i) (hhi : i ≤ -1) :
    (remove st (some i)).values =
      st.values.eraseIdx ((st.values.length : Int) + i).toNat ∧
    (remove st (some i)).fields =
      st.fields.eraseIdx ((st.values.length : Int) + i).toNat ∧
    (remove st (some i)).values.length = st.values.length - 1 ∧
    (remove st (some i)).fields.length = st.values.length - 1 := by
  have hidx : ((st.values.length : Int) + i).toNat < st.values.length := by omega
  have hv := removeAt_neg_in_range st.values i hlo hhi
  have hf := removeAt_neg_in_range st.fields i (by rw [← hlen]; exact hlo) hhi
  rw [← hlen] at hf
  refine ⟨hv, hf, ?_, ?_⟩
  · show (removeAt st.values (some i)).length = st.values.length - 1
    rw [hv]
    exact List.length_eraseIdx_of_lt hidx
  · show (removeAt st.fields (some i)).length = st.values.length - 1
    rw [hf]
    rw [List.length_eraseIdx_of_lt (by rw [← hlen]; exact hidx)]
    rw [hlen]

/-- Witness for C10: `remove(-2)` on the concrete state with values
`[1, 2, 3]` removes position 1 from both sequences. -/
theorem claim_C10_negative_index_remove_witness :
    (remove (⟨[1, 2, 3], [⟨0, 1⟩, ⟨1, 2⟩, ⟨2, 3⟩], 3, []⟩ : FAState Nat) (some (-2))).values
        = ([1, 2, 3] : List Nat).eraseIdx ((3 : Int) + (-2)).toNat ∧
    (remove (⟨[1, 2, 3], [⟨0, 1⟩, ⟨1, 2⟩, ⟨2, 3⟩], 3, []⟩ : FAState Nat) (some (-2))).fields
        = ([⟨0, 1⟩, ⟨1, 2⟩, ⟨2, 3⟩] : List (Entry Nat)).eraseIdx ((3 : Int) + (-2)).toNat ∧
    (remove (⟨[1, 2, 3], [⟨0, 1⟩, ⟨1, 2⟩, ⟨2, 3⟩], 3, []⟩ : FAState Nat) (some (-2))).values.length
        = 2 ∧
    (remove (⟨[1, 2, 3], [⟨0, 1⟩, ⟨1, 2⟩, ⟨2, 3⟩], 3, []⟩ : FAState Nat) (some (-2))).fields.length
        = 2 :=
  claim_C10_negative_index_remove
    (⟨[1, 2, 3], [⟨0, 1⟩, ⟨1, 2⟩, ⟨2, 3⟩], 3, []⟩ : FAState Nat) (-2)
    (by decide) (by decide) (by decide)

end VCForm
